import Mathlib

/-!
Shallow embedding of the incremental-indexing and retrieval core of the
`rag-init` repository (NestJS/TypeScript).  The embedded code lives in
`src/rag/services/rag.service.ts` (RagService, IndexingHistoryService) and
`src/rag/services/document-loader.service.ts` (DocumentLoaderService).

The JavaScript `Map<string, FileIndexInfo>` backing the indexing ledger is
modelled as an association list with Map semantics: `mapGet` finds the first
binding, `mapSet` replaces an existing binding in place or appends a new one
at the end (JS insertion order), `mapDelete` removes the binding for a key.
-/

namespace RagInit

/-- `FileIndexInfo` interface from rag.service.ts: one ledger record. -/
structure FileIndexInfo where
  hash : String
  modifiedTime : String
  chunkCount : Nat
  indexedAt : String
deriving DecidableEq, Repr

/-- The in-memory ledger: `Map<string, FileIndexInfo>` keyed by file path. -/
abbrev History := List (String × FileIndexInfo)

/-- `Map.get`: first binding for the key, if any. -/
def mapGet : History → String → Option FileIndexInfo
  | [], _ => none
  | (k, v) :: t, key => if k = key then some v else mapGet t key

/-- `Map.set`: replace the first binding in place, or append at the end. -/
def mapSet : History → String → FileIndexInfo → History
  | [], key, v => [(key, v)]
  | (k, w) :: t, key, v =>
    if k = key then (key, v) :: t else (k, w) :: mapSet t key v

/-- `Map.delete`: drop the binding(s) for the key. -/
def mapDelete : History → String → History
  | [], _ => []
  | (k, v) :: t, key =>
    if k = key then mapDelete t key else (k, v) :: mapDelete t key

/-- The list of keys of the ledger, in insertion order (`Map.keys()`). -/
def keys (h : History) : List String := h.map (·.1)

namespace IndexingHistoryService

/-- `isIndexed(filePath)`: the ledger has a record for the path. -/
def isIndexed (h : History) (filePath : String) : Bool :=
  (mapGet h filePath).isSome

/-- `hasChanged(filePath, currentHash)`: true if no record exists, or the
recorded hash differs from the current hash. -/
def hasChanged (h : History) (filePath currentHash : String) : Bool :=
  match mapGet h filePath with
  | none => true
  | some record => record.hash != currentHash

/-- `recordIndexing(filePath, hash, modifiedTime, chunkCount)`: upsert a
record; `now` stands for `new Date().toISOString()`. -/
def recordIndexing (h : History) (filePath hash modifiedTime : String)
    (chunkCount : Nat) (now : String) : History :=
  mapSet h filePath
    { hash := hash, modifiedTime := modifiedTime, chunkCount := chunkCount,
      indexedAt := now }

/-- `removeRecord(filePath)`: delete the record for the path. -/
def removeRecord (h : History) (filePath : String) : History :=
  mapDelete h filePath

/-- `findDeletedFiles()`: every recorded path whose file no longer exists on
disk.  The filesystem is modelled by the list `disk` of existing paths
(`fs.existsSync`). -/
def findDeletedFiles (h : History) (disk : List String) : List String :=
  (keys h).filter (fun p => !(disk.contains p))

end IndexingHistoryService

/-! ### Reconciliation (RagService.incrementalIndexDirectory)

A discovered file is modelled by what the run observes of it: its path and
name, the hash/modified-time returned by `FileHashUtil.getFileInfo`, the
chunk count returned by `getChunkCount`, and two flags recording whether the
fallible calls of the per-file `try` block succeed: `hashOk` is
`FileHashUtil.getFileInfo` not throwing, `processOk` is
`addDocuments`/`getChunkCount` not throwing (these are only reached on the
add/update paths).  `now` is the wall-clock time used by `recordIndexing`. -/

structure ScanFile where
  filePath : String
  fileName : String
  hash : String
  modifiedTime : String
  chunkCount : Nat
  now : String
  hashOk : Bool
  processOk : Bool
deriving DecidableEq, Repr

/-- Mutable state of the per-file loop: the ledger plus the three counters. -/
structure RunAcc where
  history : History
  added : Nat
  updated : Nat
  skipped : Nat
deriving DecidableEq, Repr

open IndexingHistoryService

/-- One iteration of the per-file loop of `incrementalIndexDirectory`
(rag.service.ts lines 125-174).  The `catch` of the per-file `try` block is
the `else acc` branches: a throwing file changes nothing and the loop
continues. -/
def processFile (acc : RunAcc) (f : ScanFile) : RunAcc :=
  if f.hashOk then
    if isIndexed acc.history f.filePath then
      if hasChanged acc.history f.filePath f.hash then
        if f.processOk then
          { acc with
            history := recordIndexing acc.history f.filePath f.hash
              f.modifiedTime f.chunkCount f.now,
            updated := acc.updated + 1 }
        else acc
      else { acc with skipped := acc.skipped + 1 }
    else
      if f.processOk then
        { acc with
          history := recordIndexing acc.history f.filePath f.hash
            f.modifiedTime f.chunkCount f.now,
          added := acc.added + 1 }
      else acc
  else acc

/-- The four-way classification the loop body induces for one file against
the current ledger. -/
inductive FileClass where
  | cAdded
  | cUpdated
  | cSkipped
  | cFailed
deriving DecidableEq, Repr

/-- Classification of one discovered file against the current ledger. -/
def classify (h : History) (f : ScanFile) : FileClass :=
  if f.hashOk then
    if isIndexed h f.filePath then
      if hasChanged h f.filePath f.hash then
        if f.processOk then .cUpdated else .cFailed
      else .cSkipped
    else
      if f.processOk then .cAdded else .cFailed
  else .cFailed

/-- Ledger after one loop iteration, independent of the counters. -/
def stepHistory (h : History) (f : ScanFile) : History :=
  (processFile { history := h, added := 0, updated := 0, skipped := 0 } f).history

/-- Number of files of the scan processed without a per-file error, along
the actual evolution of the ledger. -/
def successCount (h : History) : List ScanFile → Nat
  | [] => 0
  | f :: fs =>
    (if classify h f = FileClass.cFailed then 0 else 1)
      + successCount (stepHistory h f) fs

/-- The record returned by `incrementalIndexDirectory`. -/
structure IndexResult where
  added : Nat
  updated : Nat
  deleted : Nat
  skipped : Nat
  total : Nat
deriving DecidableEq, Repr

/-- Ledger state after the per-file loop of `incrementalIndexDirectory`. -/
def postLoopHistory (files : List ScanFile) (h0 : History) : RunAcc :=
  files.foldl processFile { history := h0, added := 0, updated := 0, skipped := 0 }

/-- `RagService.incrementalIndexDirectory` (rag.service.ts lines 100-209):
run the per-file loop over the scanned files, then detect deleted files by
checking every ledger path against the filesystem, remove their records, and
return the counters with `total = added + updated + skipped`. -/
def incrementalIndexDirectory (files : List ScanFile) (disk : List String)
    (h0 : History) : IndexResult × History :=
  let acc := postLoopHistory files h0
  let deletedFiles := findDeletedFiles acc.history disk
  let finalHistory := deletedFiles.foldl removeRecord acc.history
  ({ added := acc.added, updated := acc.updated, deleted := deletedFiles.length,
     skipped := acc.skipped, total := acc.added + acc.updated + acc.skipped },
   finalHistory)

/-! ### Query-time retrieval and re-ranking (RagService.query) -/

/-- `pre` is a prefix of `l`, on character lists. -/
def isPrefixOfChars : List Char → List Char → Bool
  | [], _ => true
  | _ :: _, [] => false
  | a :: as, b :: bs => a == b && isPrefixOfChars as bs

/-- JavaScript `string.startsWith(pre)`, on character lists. -/
def startsWithStr (s pre : String) : Bool :=
  isPrefixOfChars pre.data s.data

/-- `sub` occurs as a contiguous run inside `l`, on character lists. -/
def occursIn (sub : List Char) : List Char → Bool
  | [] => sub.isEmpty
  | c :: t => isPrefixOfChars sub (c :: t) || occursIn sub t

/-- JavaScript `string.includes(sub)`: `sub` occurs as a substring of `s`,
modelled on the character lists. -/
def includes (s sub : String) : Bool :=
  occursIn sub.data s.data

/-- JavaScript `string.toLowerCase()`: lower-case every character (Korean
characters are unaffected).  Defined on the character list so that it
evaluates by kernel reduction. -/
def toLowerStr (s : String) : String :=
  ⟨s.data.map Char.toLower⟩

/-- The metadata fields of a candidate document that the re-ranking filter
reads; `none` models an absent (`undefined`) field. -/
structure DocMeta where
  fileName : Option String
  company_name : Option String
  company_name_en : Option String
deriving DecidableEq, Repr

/-- A candidate document returned by the similarity search. -/
structure Doc where
  pageContent : String
  metadata : DocMeta
deriving DecidableEq, Repr

/-- One gazetteer entry: Korean form and English/transliterated form. -/
structure Company where
  ko : String
  en : String
deriving DecidableEq, Repr

/-- The hardcoded company gazetteer of `extractCompanyName`, in scan order. -/
def companies : List Company :=
  [ { ko := "쿠팡", en := "coupang" },
    { ko := "토스", en := "toss" },
    { ko := "케이뱅크", en := "kbank" },
    { ko := "네이버", en := "naver" },
    { ko := "카카오", en := "kakao" },
    { ko := "삼성", en := "samsung" },
    { ko := "현대", en := "hyundai" },
    { ko := "lg", en := "lg" },
    { ko := "skt", en := "skt" },
    { ko := "배달의민족", en := "woowa" },
    { ko := "우아한형제들", en := "woowa" },
    { ko := "직방", en := "zigbang" } ]

/-- The loop condition of `extractCompanyName` for one gazetteer entry:
`question.includes(company.ko) || lowerQuestion.includes(company.en)`. -/
def matchesCompany (question : String) (c : Company) : Bool :=
  includes question c.ko || includes (toLowerStr question) c.en

/-- The `for` loop of `extractCompanyName`: first matching entry wins and
its Korean form is returned. -/
def extractCompanyNameAux (question : String) : List Company → Option String
  | [] => none
  | c :: cs =>
    if matchesCompany question c then some c.ko
    else extractCompanyNameAux question cs

/-- `RagService.extractCompanyName` (rag.service.ts lines 309-338). -/
def extractCompanyName (question : String) : Option String :=
  extractCompanyNameAux question companies

/-- The re-ranking filter predicate of `RagService.query` (lines 262-276):
the search term occurs (case-insensitively) in the file name, the company
name, or the English company name of the candidate's metadata. -/
def docMatches (companyName : String) (d : Doc) : Bool :=
  let fileName := toLowerStr (d.metadata.fileName.getD "")
  let docCompanyName := toLowerStr (d.metadata.company_name.getD "")
  let companyNameEn := toLowerStr (d.metadata.company_name_en.getD "")
  let searchTerm := toLowerStr companyName
  includes fileName searchTerm || includes docCompanyName searchTerm
    || includes companyNameEn searchTerm

/-- `candidateDocs.filter(...)` of `RagService.query`. -/
def filterByCompany (companyName : String) (docs : List Doc) : List Doc :=
  docs.filter (docMatches companyName)

/-- The `relevantDocs` computation of `RagService.query` (lines 254-289):
extract a company name; if one is found, filter the candidates by it and
take the first 4 of the filtered list when non-empty, otherwise the first 4
of the unfiltered candidates; with no company name, the first 4 of the
unfiltered candidates.  These are the source documents `query` returns
(answer generation is external). -/
def querySources (question : String) (candidateDocs : List Doc) : List Doc :=
  match extractCompanyName question with
  | some companyName =>
    let filteredDocs := filterByCompany companyName candidateDocs
    if 0 < filteredDocs.length then filteredDocs.take 4
    else candidateDocs.take 4
  | none => candidateDocs.take 4

/-! ### Directory scan (DocumentLoaderService.getAllFiles) -/

/-- A filesystem entry as `getAllFiles` observes it via `readdirSync` and
`statSync`: a plain file, or a directory with its entries. -/
inductive FsEntry where
  | file (name : String)
  | dir (name : String) (entries : List FsEntry)

/-- `DocumentLoaderService.getAllFiles(dirPath, recursive)`
(document-loader.service.ts lines 157-179), applied to the entry list of
the directory at `dirPath`: directories are recursed into when `recursive`
is set, and a file is kept unless its name starts with a dot
(`!item.startsWith('.')`).  `path.join` is modelled as `dirPath ++ "/" ++
name`. -/
def getAllFiles : String → Bool → List FsEntry → List String
  | _, _, [] => []
  | dirPath, recursive, FsEntry.file name :: rest =>
    (if startsWithStr name "." then [] else [dirPath ++ "/" ++ name])
      ++ getAllFiles dirPath recursive rest
  | dirPath, recursive, FsEntry.dir name entries :: rest =>
    (if recursive then getAllFiles (dirPath ++ "/" ++ name) recursive entries
     else [])
      ++ getAllFiles dirPath recursive rest

/-- A single filesystem entry name: contains no path separator.  Names
produced by `fs.readdirSync` are base names, which never contain `/`. -/
def nameOk (s : String) : Bool :=
  !(s.data.contains '/')

/-- Well-formedness of an entry tree: every file and directory name in it is
a base name (no `/` inside), as `fs.readdirSync` guarantees. -/
def namesOk : List FsEntry → Bool
  | [] => true
  | FsEntry.file name :: rest => nameOk name && namesOk rest
  | FsEntry.dir name entries :: rest =>
    nameOk name && namesOk entries && namesOk rest

/-! ### Ledger persistence (IndexingHistoryService.loadHistory / saveHistory) -/

/-- The possible states of the on-disk ledger file `.indexing-history.json`
as `loadHistory` observes them: absent (`fs.existsSync` false), unreadable
(`fs.readFileSync` throws), corrupt (`JSON.parse` throws on the raw
content), or parsing to a well-formed mapping. -/
inductive LedgerFileState where
  | absent
  | unreadable
  | corrupt (raw : String)
  | valid (entries : List (String × FileIndexInfo))
deriving DecidableEq

/-- The `try` block of `loadHistory`: read and parse the ledger file;
`Except.error` models a thrown exception.  When the file is absent the
block falls through and the empty map is returned. -/
def tryLoadHistory : LedgerFileState → Except String History
  | .absent => .ok []
  | .unreadable => .error "history read failed"
  | .corrupt _ => .error "history parse failed"
  | .valid entries => .ok entries

/-- `IndexingHistoryService.loadHistory` (rag.service.ts lines 504-516):
any thrown error is caught, a warning is logged, and the empty map is
returned.  This is what the constructor (lines 369-375) assigns to the
in-memory ledger. -/
def loadHistory (st : LedgerFileState) : History :=
  match tryLoadHistory st with
  | .ok h => h
  | .error _ => []

/-- The in-memory ledger together with the on-disk ledger file (`none` = no
file yet); the file contents are modelled already parsed. -/
structure LedgerState where
  history : History
  ledgerFile : Option History
deriving DecidableEq, Repr

/-- `IndexingHistoryService.saveHistory` (rag.service.ts lines 521-532):
serialize the in-memory map to the ledger file.  `writeOk = false` models
`fs.writeFileSync` throwing: the error is caught and only logged, leaving
the file as it was. -/
def saveHistory (writeOk : Bool) (st : LedgerState) : LedgerState :=
  if writeOk then { st with ledgerFile := some st.history } else st

/-- `recordIndexing` at the persistence level: update the in-memory map,
then `saveHistory`. -/
def recordIndexingS (writeOk : Bool) (st : LedgerState)
    (filePath hash modifiedTime : String) (chunkCount : Nat) (now : String) :
    LedgerState :=
  saveHistory writeOk
    { st with
      history := recordIndexing st.history filePath hash modifiedTime
        chunkCount now }

/-- `removeRecord` at the persistence level: delete from the in-memory map,
then `saveHistory`. -/
def removeRecordS (writeOk : Bool) (st : LedgerState) (filePath : String) :
    LedgerState :=
  saveHistory writeOk { st with history := removeRecord st.history filePath }

/-- `clearHistory` (rag.service.ts lines 537-541): clear the in-memory map,
then `saveHistory`. -/
def clearHistoryS (writeOk : Bool) (st : LedgerState) : LedgerState :=
  saveHistory writeOk { st with history := [] }

/-! ## Lemmas about the ledger map -/

theorem keys_nil : keys ([] : History) = [] := rfl

theorem keys_cons (a : String) (b : FileIndexInfo) (t : History) :
    keys ((a, b) :: t) = a :: keys t := rfl

theorem mapGet_mapSet_self (h : History) (k : String) (v : FileIndexInfo) :
    mapGet (mapSet h k v) k = some v := by
  induction h with
  | nil => simp [mapSet, mapGet]
  | cons kv t ih =>
    obtain ⟨a, b⟩ := kv
    by_cases hak : a = k <;> simp [mapSet, mapGet, hak, ih]

theorem mapGet_mapSet_ne (h : History) (k p : String) (v : FileIndexInfo)
    (hpk : p ≠ k) : mapGet (mapSet h k v) p = mapGet h p := by
  induction h with
  | nil => simp [mapSet, mapGet, Ne.symm hpk]
  | cons kv t ih =>
    obtain ⟨a, b⟩ := kv
    by_cases hak : a = k
    · subst hak
      simp [mapSet, mapGet, Ne.symm hpk]
    · simp [mapSet, mapGet, hak, ih]

theorem mapGet_mapDelete_self (h : History) (k : String) :
    mapGet (mapDelete h k) k = none := by
  induction h with
  | nil => rfl
  | cons kv t ih =>
    obtain ⟨a, b⟩ := kv
    by_cases hak : a = k <;> simp [mapDelete, mapGet, hak, ih]

theorem mapGet_mapDelete_ne (h : History) (k p : String) (hpk : p ≠ k) :
    mapGet (mapDelete h k) p = mapGet h p := by
  induction h with
  | nil => rfl
  | cons kv t ih =>
    obtain ⟨a, b⟩ := kv
    by_cases hak : a = k
    · subst hak
      simp [mapDelete, mapGet, Ne.symm hpk, ih]
    · simp [mapDelete, mapGet, hak, ih]

theorem mapGet_mapDelete_of_none (h : History) (k p : String)
    (hp : mapGet h p = none) : mapGet (mapDelete h k) p = none := by
  by_cases hpk : p = k
  · subst hpk; exact mapGet_mapDelete_self h p
  · rw [mapGet_mapDelete_ne h k p hpk]; exact hp

theorem mapGet_eq_none_iff (h : History) (p : String) :
    mapGet h p = none ↔ p ∉ keys h := by
  induction h with
  | nil => simp [mapGet, keys]
  | cons kv t ih =>
    obtain ⟨a, b⟩ := kv
    by_cases hap : a = p
    · subst hap; simp [mapGet, keys]
    · simp [mapGet, keys, hap, Ne.symm hap, ih]

theorem keys_mapSet_of_some (h : History) (k : String) (v : FileIndexInfo) :
    (mapGet h k).isSome → keys (mapSet h k v) = keys h := by
  induction h with
  | nil => simp [mapGet]
  | cons kv t ih =>
    obtain ⟨a, b⟩ := kv
    by_cases hak : a = k
    · intro _
      simp [mapSet, keys_cons, hak]
    · intro hk
      have hk' : (mapGet t k).isSome := by simpa [mapGet, hak] using hk
      simp only [mapSet, if_neg hak, keys_cons, ih hk']

theorem keys_mapSet_of_none (h : History) (k : String) (v : FileIndexInfo) :
    mapGet h k = none → keys (mapSet h k v) = keys h ++ [k] := by
  induction h with
  | nil => simp [mapSet, mapGet, keys]
  | cons kv t ih =>
    obtain ⟨a, b⟩ := kv
    by_cases hak : a = k
    · simp [mapGet, hak]
    · intro hk
      have hk' : mapGet t k = none := by simpa [mapGet, hak] using hk
      simp only [mapSet, if_neg hak, keys_cons, ih hk', List.cons_append]

theorem nodup_keys_mapSet (h : History) (k : String) (v : FileIndexInfo)
    (hn : (keys h).Nodup) : (keys (mapSet h k v)).Nodup := by
  cases hk : mapGet h k with
  | none =>
    rw [keys_mapSet_of_none h k v hk]
    have hkk : k ∉ keys h := (mapGet_eq_none_iff h k).mp hk
    simp [List.nodup_append, hn, hkk]
  | some w =>
    rw [keys_mapSet_of_some h k v (by simp [hk])]
    exact hn

theorem mem_keys_mapDelete (h : History) (k p : String) :
    p ∈ keys (mapDelete h k) ↔ p ∈ keys h ∧ p ≠ k := by
  induction h with
  | nil => simp [mapDelete, keys]
  | cons kv t ih =>
    obtain ⟨a, b⟩ := kv
    by_cases hak : a = k
    · have hd : mapDelete ((a, b) :: t) k = mapDelete t k := by
        simp [mapDelete, hak]
      rw [hd, ih, keys_cons, List.mem_cons]
      constructor
      · intro hp
        exact ⟨Or.inr hp.1, hp.2⟩
      · rintro ⟨hp | hp, hne⟩
        · exact absurd (hp.trans hak) hne
        · exact ⟨hp, hne⟩
    · simp only [mapDelete, if_neg hak, keys_cons, List.mem_cons, ih]
      constructor
      · rintro (rfl | ⟨h1, h2⟩)
        · exact ⟨Or.inl rfl, fun hc => hak hc⟩
        · exact ⟨Or.inr h1, h2⟩
      · rintro ⟨rfl | h1, h2⟩
        · exact Or.inl rfl
        · exact Or.inr ⟨h1, h2⟩

theorem nodup_keys_mapDelete (h : History) (k : String) :
    (keys h).Nodup → (keys (mapDelete h k)).Nodup := by
  induction h with
  | nil => simp [mapDelete, keys]
  | cons kv t ih =>
    obtain ⟨a, b⟩ := kv
    rw [keys_cons, List.nodup_cons]
    rintro ⟨hna, hnt⟩
    by_cases hak : a = k
    · simpa [mapDelete, hak] using ih hnt
    · have ha : a ∉ keys (mapDelete t k) := by
        rw [mem_keys_mapDelete]
        intro hc
        exact hna hc.1
      simp only [mapDelete, if_neg hak, keys_cons, List.nodup_cons]
      exact ⟨ha, ih hnt⟩

/-! ## Lemmas about the reconciliation loop -/

/-- The hash recorded in the ledger at a path, if any. -/
def hashAt (h : History) (p : String) : Option String :=
  (mapGet h p).map (·.hash)

theorem processFile_history (acc : RunAcc) (f : ScanFile) :
    (processFile acc f).history = stepHistory acc.history f := by
  obtain ⟨h, a, u, s⟩ := acc
  simp only [processFile, stepHistory]
  split_ifs <;> rfl

theorem foldl_processFile_history (files : List ScanFile) : ∀ acc : RunAcc,
    (files.foldl processFile acc).history = files.foldl stepHistory acc.history := by
  induction files with
  | nil => intro acc; rfl
  | cons g gs ih =>
    intro acc
    simp only [List.foldl_cons, ih, processFile_history]

theorem processFile_of_skip (acc : RunAcc) (f : ScanFile) (r : FileIndexInfo)
    (hok : f.hashOk = true) (hr : mapGet acc.history f.filePath = some r)
    (hrh : r.hash = f.hash) :
    processFile acc f = { acc with skipped := acc.skipped + 1 } := by
  simp [processFile, isIndexed, hasChanged, hok, hr, hrh]

theorem stepHistory_hashAt_self (h : History) (f : ScanFile)
    (hok : f.hashOk = true) (hpok : f.processOk = true) :
    hashAt (stepHistory h f) f.filePath = some f.hash := by
  simp only [stepHistory, processFile, hok, hpok, if_true]
  cases hmg : mapGet h f.filePath with
  | none =>
    simp [isIndexed, hmg, recordIndexing, hashAt, mapGet_mapSet_self]
  | some r =>
    by_cases hrh : r.hash = f.hash
    · simp [isIndexed, hasChanged, hmg, hrh, hashAt]
    · simp [isIndexed, hasChanged, hmg, hrh, recordIndexing, hashAt,
        mapGet_mapSet_self]

theorem stepHistory_hashAt_ne (h : History) (f : ScanFile) (p : String)
    (hp : p ≠ f.filePath) : hashAt (stepHistory h f) p = hashAt h p := by
  simp only [stepHistory, processFile]
  split_ifs <;>
    simp [hashAt, recordIndexing, mapGet_mapSet_ne _ _ _ _ hp]

theorem foldl_stepHistory_hashAt_ne (files : List ScanFile) :
    ∀ (h : History) (p : String), (∀ f ∈ files, p ≠ f.filePath) →
    hashAt (files.foldl stepHistory h) p = hashAt h p := by
  induction files with
  | nil => intro h p _; rfl
  | cons g gs ih =>
    intro h p hp
    rw [List.foldl_cons, ih _ _ (fun f hf => hp f (List.mem_cons_of_mem _ hf)),
      stepHistory_hashAt_ne h g p (hp g (List.mem_cons_self _ _))]

theorem run_hashAt (files : List ScanFile) : ∀ h : History,
    (∀ f ∈ files, f.hashOk = true ∧ f.processOk = true) →
    (files.map (·.filePath)).Nodup →
    ∀ f ∈ files, hashAt (files.foldl stepHistory h) f.filePath = some f.hash := by
  induction files with
  | nil => intro h _ _ f hf; cases hf
  | cons g gs ih =>
    intro h hok hnodup f hf
    simp only [List.map_cons, List.nodup_cons] at hnodup
    rcases List.mem_cons.mp hf with rfl | hfs
    · rw [List.foldl_cons]
      have hne : ∀ f' ∈ gs, f.filePath ≠ f'.filePath := by
        intro f' hf' heq
        exact hnodup.1 (heq ▸ List.mem_map_of_mem (·.filePath) hf')
      rw [foldl_stepHistory_hashAt_ne gs _ _ hne]
      exact stepHistory_hashAt_self h f (hok f (List.mem_cons_self _ _)).1
        (hok f (List.mem_cons_self _ _)).2
    · rw [List.foldl_cons]
      exact ih (stepHistory h g) (fun f' hf' => hok f' (List.mem_cons_of_mem _ hf'))
        hnodup.2 f hfs

theorem run_all_skip (files : List ScanFile) : ∀ acc : RunAcc,
    (∀ f ∈ files, f.hashOk = true) →
    (∀ f ∈ files, hashAt acc.history f.filePath = some f.hash) →
    files.foldl processFile acc
      = { acc with skipped := acc.skipped + files.length } := by
  induction files with
  | nil => intro acc _ _; simp
  | cons g gs ih =>
    intro acc hok hhash
    have hg := hhash g (List.mem_cons_self _ _)
    obtain ⟨r, hr, hrh⟩ :
        ∃ r, mapGet acc.history g.filePath = some r ∧ r.hash = g.hash := by
      cases hmg : mapGet acc.history g.filePath with
      | none => rw [hashAt, hmg] at hg; cases hg
      | some r => exact ⟨r, rfl, by simpa [hashAt, hmg] using hg⟩
    rw [List.foldl_cons,
      processFile_of_skip acc g r (hok g (List.mem_cons_self _ _)) hr hrh,
      ih { acc with skipped := acc.skipped + 1 }
        (fun f hf => hok f (List.mem_cons_of_mem _ hf))
        (fun f hf => hhash f (List.mem_cons_of_mem _ hf))]
    have hlen : acc.skipped + 1 + gs.length = acc.skipped + (g :: gs).length := by
      rw [List.length_cons]
      omega
    rw [hlen]

/-- Sum of the three per-file counters. -/
def sum3 (acc : RunAcc) : Nat := acc.added + acc.updated + acc.skipped

theorem processFile_sum3 (acc : RunAcc) (f : ScanFile) :
    sum3 (processFile acc f)
      = sum3 acc + (if classify acc.history f = FileClass.cFailed then 0 else 1) := by
  simp only [processFile, classify, sum3]
  split_ifs <;> simp_all <;> omega

theorem run_sum3 (files : List ScanFile) : ∀ acc : RunAcc,
    sum3 (files.foldl processFile acc) = sum3 acc + successCount acc.history files := by
  induction files with
  | nil => intro acc; simp [successCount]
  | cons g gs ih =>
    intro acc
    rw [List.foldl_cons, ih, successCount, processFile_sum3, processFile_history]
    omega

theorem classify_ne_failed (h : History) (f : ScanFile)
    (hok : f.hashOk = true) (hpok : f.processOk = true) :
    classify h f ≠ FileClass.cFailed := by
  simp only [classify, hok, hpok, if_true]
  split_ifs <;> simp

theorem successCount_all_ok (files : List ScanFile) : ∀ h : History,
    (∀ f ∈ files, f.hashOk = true ∧ f.processOk = true) →
    successCount h files = files.length := by
  induction files with
  | nil => intro h _; rfl
  | cons g gs ih =>
    intro h hok
    rw [successCount,
      if_neg (classify_ne_failed h g (hok g (List.mem_cons_self _ _)).1
        (hok g (List.mem_cons_self _ _)).2),
      ih _ (fun f hf => hok f (List.mem_cons_of_mem _ hf)), List.length_cons]
    omega

/-! ## Lemmas about the deletion phase -/

theorem mapGet_foldl_remove_of_not_mem (ds : List String) :
    ∀ (h : History) (p : String), (∀ q ∈ ds, q ≠ p) →
    mapGet (ds.foldl removeRecord h) p = mapGet h p := by
  induction ds with
  | nil => intro h p _; rfl
  | cons d ds ih =>
    intro h p hq
    rw [List.foldl_cons, ih _ _ (fun q hqq => hq q (List.mem_cons_of_mem _ hqq))]
    exact mapGet_mapDelete_ne h d p (fun hc => hq d (List.mem_cons_self _ _) hc.symm)

theorem mapGet_foldl_remove_none (ds : List String) :
    ∀ (h : History) (p : String), mapGet h p = none →
    mapGet (ds.foldl removeRecord h) p = none := by
  induction ds with
  | nil => intro h p hp; exact hp
  | cons d ds ih =>
    intro h p hp
    rw [List.foldl_cons]
    exact ih _ _ (mapGet_mapDelete_of_none h d p hp)

theorem mapGet_foldl_remove_of_mem (ds : List String) :
    ∀ (h : History) (p : String), p ∈ ds →
    mapGet (ds.foldl removeRecord h) p = none := by
  induction ds with
  | nil => intro h p hp; cases hp
  | cons d ds ih =>
    intro h p hp
    rcases List.mem_cons.mp hp with rfl | hp'
    · rw [List.foldl_cons]
      exact mapGet_foldl_remove_none ds _ _ (mapGet_mapDelete_self h p)
    · rw [List.foldl_cons]
      exact ih _ _ hp'

theorem mem_keys_foldl_remove (ds : List String) :
    ∀ (h : History) (p : String), p ∈ keys (ds.foldl removeRecord h) →
    p ∈ keys h ∧ p ∉ ds := by
  induction ds with
  | nil =>
    intro h p hp
    exact ⟨hp, by simp⟩
  | cons d ds ih =>
    intro h p hp
    rw [List.foldl_cons] at hp
    obtain ⟨h1, h2⟩ := ih _ _ hp
    have h1' := (mem_keys_mapDelete h d p).mp h1
    refine ⟨h1'.1, ?_⟩
    intro hc
    rcases List.mem_cons.mp hc with rfl | hc'
    · exact h1'.2 rfl
    · exact h2 hc'

theorem nodup_keys_stepHistory (h : History) (f : ScanFile)
    (hn : (keys h).Nodup) : (keys (stepHistory h f)).Nodup := by
  simp only [stepHistory, processFile]
  split_ifs <;> first
    | exact hn
    | exact nodup_keys_mapSet _ _ _ hn

theorem nodup_keys_run (files : List ScanFile) : ∀ h : History,
    (keys h).Nodup → (keys (files.foldl stepHistory h)).Nodup := by
  induction files with
  | nil => intro h hn; exact hn
  | cons g gs ih =>
    intro h hn
    rw [List.foldl_cons]
    exact ih _ (nodup_keys_stepHistory h g hn)

theorem mem_findDeletedFiles (h : History) (disk : List String) (p : String) :
    p ∈ findDeletedFiles h disk ↔ p ∈ keys h ∧ p ∉ disk := by
  simp [findDeletedFiles, List.mem_filter]

theorem findDeletedFiles_eq_nil (h : History) (disk : List String)
    (hk : ∀ p ∈ keys h, p ∈ disk) : findDeletedFiles h disk = [] := by
  rw [findDeletedFiles, List.filter_eq_nil_iff]
  intro p hp
  simp [hk p hp]

/-! ## Lemmas about the gazetteer scan -/

theorem extractCompanyNameAux_append (question : String) (cs₁ : List Company)
    (c : Company) (cs₂ : List Company)
    (h1 : ∀ c' ∈ cs₁, matchesCompany question c' = false)
    (hc : matchesCompany question c = true) :
    extractCompanyNameAux question (cs₁ ++ c :: cs₂) = some c.ko := by
  induction cs₁ with
  | nil => simp [extractCompanyNameAux, hc]
  | cons d ds ih =>
    have hd := h1 d (List.mem_cons_self _ _)
    simp only [List.cons_append, extractCompanyNameAux, hd, Bool.false_eq_true,
      if_false]
    exact ih (fun c' hc' => h1 c' (List.mem_cons_of_mem _ hc'))

/-! ## Projection equations for incrementalIndexDirectory -/

theorem incrementalIndexDirectory_added (files : List ScanFile)
    (disk : List String) (h0 : History) :
    (incrementalIndexDirectory files disk h0).1.added
      = (postLoopHistory files h0).added := rfl

theorem incrementalIndexDirectory_updated (files : List ScanFile)
    (disk : List String) (h0 : History) :
    (incrementalIndexDirectory files disk h0).1.updated
      = (postLoopHistory files h0).updated := rfl

theorem incrementalIndexDirectory_skipped (files : List ScanFile)
    (disk : List String) (h0 : History) :
    (incrementalIndexDirectory files disk h0).1.skipped
      = (postLoopHistory files h0).skipped := rfl

theorem incrementalIndexDirectory_deleted (files : List ScanFile)
    (disk : List String) (h0 : History) :
    (incrementalIndexDirectory files disk h0).1.deleted
      = (findDeletedFiles (postLoopHistory files h0).history disk).length := rfl

theorem incrementalIndexDirectory_snd (files : List ScanFile)
    (disk : List String) (h0 : History) :
    (incrementalIndexDirectory files disk h0).2
      = (findDeletedFiles (postLoopHistory files h0).history disk).foldl
          removeRecord (postLoopHistory files h0).history := rfl

/-! ## The claims -/

/-- C2: Re-ranking fallback — if a company name is extracted from the
question but no candidate's metadata matches it, `query` uses the first 4
chunks of the unfiltered candidate list as sources, so with at least 4
candidates it returns exactly 4 sources, never an empty set. -/
theorem claim_C2_reranking_fallback (question : String) (cands : List Doc)
    (companyName : String)
    (hname : extractCompanyName question = some companyName)
    (hempty : filterByCompany companyName cands = [])
    (hlen : 4 ≤ cands.length) :
    querySources question cands = cands.take 4
    ∧ (querySources question cands).length = 4 := by
  have hq : querySources question cands = cands.take 4 := by
    simp [querySources, hname, hempty]
  refine ⟨hq, ?_⟩
  rw [hq, List.length_take]
  omega

/-- Witness for C2 at a concrete question and candidate list. -/
theorem claim_C2_witness :
    querySources "쿠팡 로켓배송 어때"
        [ { pageContent := "c1",
            metadata := { fileName := some "toss.md", company_name := some "토스",
                          company_name_en := some "toss" } },
          { pageContent := "c2",
            metadata := { fileName := none, company_name := none,
                          company_name_en := none } },
          { pageContent := "c3",
            metadata := { fileName := some "naver.md", company_name := some "네이버",
                          company_name_en := some "naver" } },
          { pageContent := "c4",
            metadata := { fileName := none, company_name := none,
                          company_name_en := none } } ]
      = [ { pageContent := "c1",
            metadata := { fileName := some "toss.md", company_name := some "토스",
                          company_name_en := some "toss" } },
          { pageContent := "c2",
            metadata := { fileName := none, company_name := none,
                          company_name_en := none } },
          { pageContent := "c3",
            metadata := { fileName := some "naver.md", company_name := some "네이버",
                          company_name_en := some "naver" } },
          { pageContent := "c4",
            metadata := { fileName := none, company_name := none,
                          company_name_en := none } } ] :=
  (claim_C2_reranking_fallback "쿠팡 로켓배송 어때" _ "쿠팡" (by decide) (by decide)
    (by decide)).1

/-- C3: Change detection — `hasChanged(path, currentHash)` is true exactly
when no record exists or the recorded hash differs; consequently a file
present in the ledger with a differing content hash is never classified
`skipped` (its modification time is irrelevant: no hypothesis mentions it),
and when its processing succeeds the loop re-indexes it and counts it as
`updated`. -/
theorem claim_C3_change_detection :
    (∀ (h : History) (p cur : String),
      hasChanged h p cur = true ↔
        mapGet h p = none ∨ ∃ r, mapGet h p = some r ∧ r.hash ≠ cur)
    ∧ (∀ (acc : RunAcc) (f : ScanFile) (r : FileIndexInfo),
        f.hashOk = true → mapGet acc.history f.filePath = some r →
        r.hash ≠ f.hash →
        classify acc.history f ≠ FileClass.cSkipped
        ∧ (f.processOk = true →
            processFile acc f
              = { acc with
                  history := recordIndexing acc.history f.filePath f.hash
                    f.modifiedTime f.chunkCount f.now,
                  updated := acc.updated + 1 })) := by
  constructor
  · intro h p cur
    cases hm : mapGet h p with
    | none => simp [hasChanged, hm]
    | some r => simp [hasChanged, hm, bne_iff_ne]
  · intro acc f r hok hr hne
    have hch : hasChanged acc.history f.filePath f.hash = true := by
      simp [hasChanged, hr, bne_iff_ne, hne]
    have hidx : isIndexed acc.history f.filePath = true := by
      simp [isIndexed, hr]
    constructor
    · simp only [classify, hok, hidx, hch, if_true]
      split_ifs <;> simp
    · intro hpok
      simp [processFile, hok, hidx, hch, hpok]

/-- Witness for C3: a ledger entry whose hash went stale is re-indexed as
`updated`. -/
theorem claim_C3_witness :
    classify
        [("/docs/a.txt",
          { hash := "oldhash", modifiedTime := "t0", chunkCount := 3,
            indexedAt := "t0" })]
        { filePath := "/docs/a.txt", fileName := "a.txt", hash := "newhash",
          modifiedTime := "t9", chunkCount := 4, now := "t9", hashOk := true,
          processOk := true }
      ≠ FileClass.cSkipped :=
  (claim_C3_change_detection.2
    { history :=
        [("/docs/a.txt",
          { hash := "oldhash", modifiedTime := "t0", chunkCount := 3,
            indexedAt := "t0" })],
      added := 0, updated := 0, skipped := 0 }
    { filePath := "/docs/a.txt", fileName := "a.txt", hash := "newhash",
      modifiedTime := "t9", chunkCount := 4, now := "t9", hashOk := true,
      processOk := true }
    { hash := "oldhash", modifiedTime := "t0", chunkCount := 3,
      indexedAt := "t0" }
    (by decide) (by decide) (by decide)).1

/-- C5: Count conservation — `added + updated + skipped = total` always
holds; `total` equals the number of scanned files processed without a
per-file error; a file whose processing throws changes nothing (the loop
continues with the remaining files by construction of the fold). -/
theorem claim_C5_count_conservation (files : List ScanFile)
    (disk : List String) (h0 : History) :
    ((incrementalIndexDirectory files disk h0).1.added
        + (incrementalIndexDirectory files disk h0).1.updated
        + (incrementalIndexDirectory files disk h0).1.skipped
      = (incrementalIndexDirectory files disk h0).1.total)
    ∧ (incrementalIndexDirectory files disk h0).1.total = successCount h0 files
    ∧ (∀ (acc : RunAcc) (f : ScanFile),
        classify acc.history f = FileClass.cFailed → processFile acc f = acc) := by
  refine ⟨rfl, ?_, ?_⟩
  · have h1 := run_sum3 files { history := h0, added := 0, updated := 0, skipped := 0 }
    simp only [sum3] at h1
    simpa [incrementalIndexDirectory, postLoopHistory] using h1
  · intro acc f hcl
    simp only [processFile]
    split_ifs <;> simp_all [classify]

/-- Witness for C5: a failing file is counted nowhere and leaves the
accumulator unchanged. -/
theorem claim_C5_witness :
    (incrementalIndexDirectory
        [{ filePath := "/docs/a.txt", fileName := "a.txt", hash := "h1",
           modifiedTime := "t1", chunkCount := 2, now := "t1", hashOk := true,
           processOk := true },
         { filePath := "/docs/b.txt", fileName := "b.txt", hash := "h2",
           modifiedTime := "t1", chunkCount := 2, now := "t1", hashOk := false,
           processOk := true }]
        ["/docs/a.txt", "/docs/b.txt"] []).1.total
      = successCount []
          [{ filePath := "/docs/a.txt", fileName := "a.txt", hash := "h1",
             modifiedTime := "t1", chunkCount := 2, now := "t1", hashOk := true,
             processOk := true },
           { filePath := "/docs/b.txt", fileName := "b.txt", hash := "h2",
             modifiedTime := "t1", chunkCount := 2, now := "t1", hashOk := false,
             processOk := true }]
    ∧ processFile { history := [], added := 0, updated := 0, skipped := 0 }
        { filePath := "/docs/b.txt", fileName := "b.txt", hash := "h2",
          modifiedTime := "t1", chunkCount := 2, now := "t1", hashOk := false,
          processOk := true }
      = { history := [], added := 0, updated := 0, skipped := 0 } :=
  ⟨(claim_C5_count_conservation _ _ _).2.1,
   (claim_C5_count_conservation
      [{ filePath := "/docs/a.txt", fileName := "a.txt", hash := "h1",
         modifiedTime := "t1", chunkCount := 2, now := "t1", hashOk := true,
         processOk := true }]
      ["/docs/a.txt"] []).2.2
     { history := [], added := 0, updated := 0, skipped := 0 }
     { filePath := "/docs/b.txt", fileName := "b.txt", hash := "h2",
       modifiedTime := "t1", chunkCount := 2, now := "t1", hashOk := false,
       processOk := true }
     (by decide)⟩

/-- C6: Order preservation of re-ranking — the source documents returned by
`query` are a subsequence of the candidate list (filter plus truncation only,
no reordering and no re-scoring). -/
theorem claim_C6_order_preserving (question : String) (cands : List Doc) :
    (querySources question cands).Sublist cands := by
  cases hq : extractCompanyName question with
  | none =>
    simp only [querySources, hq]
    exact List.take_sublist _ _
  | some name =>
    simp only [querySources, hq]
    split_ifs with hf
    · have hsub : (filterByCompany name cands).Sublist cands := by
        simp only [filterByCompany]
        exact List.filter_sublist _
      exact (List.take_sublist _ _).trans hsub
    · exact List.take_sublist _ _

/-- C8: Ledger load robustness — an absent, unreadable, or corrupt ledger
file always loads as the empty in-memory ledger; `loadHistory` is total, so
the constructor never throws. -/
theorem claim_C8_load_robustness :
    loadHistory LedgerFileState.absent = []
    ∧ loadHistory LedgerFileState.unreadable = []
    ∧ ∀ raw : String, loadHistory (LedgerFileState.corrupt raw) = [] :=
  ⟨rfl, rfl, fun _ => rfl⟩

/-- C9: Canonical-form filtering — the gazetteer scan returns the Korean
form of the first matching entry (even when the question matched only the
English alias), `query` filters candidates with exactly that extracted
(Korean) term, and a candidate none of whose metadata fields contains the
term does not pass the filter. -/
theorem claim_C9_canonical_form :
    (∀ (question : String) (cs₁ : List Company) (c : Company)
        (cs₂ : List Company),
      companies = cs₁ ++ c :: cs₂ →
      (∀ c' ∈ cs₁, matchesCompany question c' = false) →
      matchesCompany question c = true →
      extractCompanyName question = some c.ko)
    ∧ (∀ (question companyName : String) (cands : List Doc),
      extractCompanyName question = some companyName →
      querySources question cands
        = (if 0 < (filterByCompany companyName cands).length
           then (filterByCompany companyName cands).take 4
           else cands.take 4))
    ∧ (∀ (companyName : String) (d : Doc) (cands : List Doc),
      docMatches companyName d = false →
      d ∉ filterByCompany companyName cands) := by
  refine ⟨?_, ?_, ?_⟩
  · intro question cs₁ c cs₂ hcs h1 hc
    rw [extractCompanyName, hcs]
    exact extractCompanyNameAux_append question cs₁ c cs₂ h1 hc
  · intro question companyName cands hq
    simp [querySources, hq]
  · intro companyName d cands hd hmem
    simp only [filterByCompany] at hmem
    have h2 := (List.mem_filter.mp hmem).2
    rw [hd] at h2
    simp at h2

/-- Witness for C9: a question naming only the transliterated alias
`coupang` yields the Korean form `쿠팡`, and a candidate tagged only with
the English alias in `company_name_en` does not pass the filter. -/
theorem claim_C9_witness :
    extractCompanyName "how is coupang doing" = some "쿠팡"
    ∧ ({ pageContent := "coupang overview",
         metadata := { fileName := some "report.txt", company_name := none,
                       company_name_en := some "Coupang" } } : Doc)
        ∉ filterByCompany "쿠팡"
          [{ pageContent := "coupang overview",
             metadata := { fileName := some "report.txt", company_name := none,
                           company_name_en := some "Coupang" } }] :=
  ⟨claim_C9_canonical_form.1 "how is coupang doing" []
      { ko := "쿠팡", en := "coupang" }
      [ { ko := "토스", en := "toss" },
        { ko := "케이뱅크", en := "kbank" },
        { ko := "네이버", en := "naver" },
        { ko := "카카오", en := "kakao" },
        { ko := "삼성", en := "samsung" },
        { ko := "현대", en := "hyundai" },
        { ko := "lg", en := "lg" },
        { ko := "skt", en := "skt" },
        { ko := "배달의민족", en := "woowa" },
        { ko := "우아한형제들", en := "woowa" },
        { ko := "직방", en := "zigbang" } ]
      rfl (by intro c' hc'; cases hc') (by decide),
   claim_C9_canonical_form.2.2 "쿠팡"
     { pageContent := "coupang overview",
       metadata := { fileName := some "report.txt", company_name := none,
                     company_name_en := some "Coupang" } }
     [{ pageContent := "coupang overview",
        metadata := { fileName := some "report.txt", company_name := none,
                      company_name_en := some "Coupang" } }]
     (by decide)⟩

/-- C10: Silent persistence failure — `recordIndexing`, `removeRecord` and
`clearHistory` are total even when the ledger-file write fails
(`writeOk = false`): the in-memory map is updated (or cleared) and the
on-disk file is left untouched, i.e. stale relative to memory. -/
theorem claim_C10_silent_persistence :
    (∀ (st : LedgerState) (p hsh mt : String) (cc : Nat) (now : String),
      (recordIndexingS false st p hsh mt cc now).history
          = recordIndexing st.history p hsh mt cc now
      ∧ (recordIndexingS false st p hsh mt cc now).ledgerFile = st.ledgerFile)
    ∧ (∀ (st : LedgerState) (p : String),
      (removeRecordS false st p).history = removeRecord st.history p
      ∧ (removeRecordS false st p).ledgerFile = st.ledgerFile)
    ∧ (∀ st : LedgerState,
      (clearHistoryS false st).history = []
      ∧ (clearHistoryS false st).ledgerFile = st.ledgerFile) :=
  ⟨fun _ _ _ _ _ _ => ⟨rfl, rfl⟩, fun _ _ => ⟨rfl, rfl⟩, fun _ => ⟨rfl, rfl⟩⟩

/-- C1: Reconciliation is idempotent — re-running `incrementalIndexDirectory`
over the same directory with unchanged files (same paths, same hashes, all
on disk, no per-file failures) yields `added = 0`, `updated = 0`,
`deleted = 0`, and `skipped` equal to the first run's `total`. -/
theorem claim_C1_idempotence (files : List ScanFile) (disk : List String)
    (h0 : History)
    (hok : ∀ f ∈ files, f.hashOk = true ∧ f.processOk = true)
    (hdisk : ∀ f ∈ files, f.filePath ∈ disk)
    (hnodup : (files.map (·.filePath)).Nodup) :
    (incrementalIndexDirectory files disk
        (incrementalIndexDirectory files disk h0).2).1.added = 0
    ∧ (incrementalIndexDirectory files disk
        (incrementalIndexDirectory files disk h0).2).1.updated = 0
    ∧ (incrementalIndexDirectory files disk
        (incrementalIndexDirectory files disk h0).2).1.deleted = 0
    ∧ (incrementalIndexDirectory files disk
        (incrementalIndexDirectory files disk h0).2).1.skipped
      = (incrementalIndexDirectory files disk h0).1.total := by
  have hpost : (postLoopHistory files h0).history = files.foldl stepHistory h0 :=
    foldl_processFile_history files _
  have hrunhash : ∀ f ∈ files,
      hashAt (files.foldl stepHistory h0) f.filePath = some f.hash :=
    run_hashAt files h0 hok hnodup
  have hh1 : ∀ f ∈ files,
      hashAt ((findDeletedFiles (files.foldl stepHistory h0) disk).foldl
        removeRecord (files.foldl stepHistory h0)) f.filePath = some f.hash := by
    intro f hf
    have hq : ∀ q ∈ findDeletedFiles (files.foldl stepHistory h0) disk,
        q ≠ f.filePath := by
      intro q hqmem hqe
      exact ((mem_findDeletedFiles _ disk q).mp hqmem).2 (hqe ▸ hdisk f hf)
    unfold hashAt
    rw [mapGet_foldl_remove_of_not_mem _ _ _ hq]
    exact hrunhash f hf
  have hkeys1 : ∀ p ∈ keys ((findDeletedFiles (files.foldl stepHistory h0)
      disk).foldl removeRecord (files.foldl stepHistory h0)), p ∈ disk := by
    intro p hp
    obtain ⟨hp1, hp2⟩ := mem_keys_foldl_remove _ _ _ hp
    by_contra hnd
    exact hp2 ((mem_findDeletedFiles _ disk p).mpr ⟨hp1, hnd⟩)
  have h2eq : (incrementalIndexDirectory files disk h0).2
      = (findDeletedFiles (files.foldl stepHistory h0) disk).foldl removeRecord
          (files.foldl stepHistory h0) := by
    simp only [incrementalIndexDirectory]
    rw [hpost]
  have hrun2 := run_all_skip files
    { history := (findDeletedFiles (files.foldl stepHistory h0) disk).foldl
        removeRecord (files.foldl stepHistory h0),
      added := 0, updated := 0, skipped := 0 }
    (fun f hf => (hok f hf).1) (fun f hf => hh1 f hf)
  have hrun2' : postLoopHistory files (incrementalIndexDirectory files disk h0).2
      = { history := (findDeletedFiles (files.foldl stepHistory h0) disk).foldl
            removeRecord (files.foldl stepHistory h0),
          added := 0, updated := 0, skipped := 0 + files.length } := by
    rw [postLoopHistory, h2eq]
    exact hrun2
  have htot2 : (incrementalIndexDirectory files disk h0).1.total = files.length := by
    have h1 := run_sum3 files { history := h0, added := 0, updated := 0, skipped := 0 }
    have h2 := successCount_all_ok files h0 hok
    show sum3 (postLoopHistory files h0) = files.length
    rw [postLoopHistory, h1]
    simp only [sum3]
    simpa using h2
  refine ⟨?_, ?_, ?_, ?_⟩
  · rw [incrementalIndexDirectory_added, hrun2']
  · rw [incrementalIndexDirectory_updated, hrun2']
  · rw [incrementalIndexDirectory_deleted, hrun2']
    show (findDeletedFiles ((findDeletedFiles (files.foldl stepHistory h0)
      disk).foldl removeRecord (files.foldl stepHistory h0)) disk).length = 0
    rw [findDeletedFiles_eq_nil _ _ hkeys1]
    rfl
  · rw [incrementalIndexDirectory_skipped, hrun2', htot2]
    show 0 + files.length = files.length
    omega

/-- Witness for C1 at a concrete one-file directory. -/
theorem claim_C1_witness :
    (incrementalIndexDirectory
        [{ filePath := "/docs/a.txt", fileName := "a.txt", hash := "h1",
           modifiedTime := "t1", chunkCount := 2, now := "t1", hashOk := true,
           processOk := true }]
        ["/docs/a.txt"]
        (incrementalIndexDirectory
          [{ filePath := "/docs/a.txt", fileName := "a.txt", hash := "h1",
             modifiedTime := "t1", chunkCount := 2, now := "t1", hashOk := true,
             processOk := true }]
          ["/docs/a.txt"] []).2).1.added = 0
    ∧ (incrementalIndexDirectory
        [{ filePath := "/docs/a.txt", fileName := "a.txt", hash := "h1",
           modifiedTime := "t1", chunkCount := 2, now := "t1", hashOk := true,
           processOk := true }]
        ["/docs/a.txt"]
        (incrementalIndexDirectory
          [{ filePath := "/docs/a.txt", fileName := "a.txt", hash := "h1",
             modifiedTime := "t1", chunkCount := 2, now := "t1", hashOk := true,
             processOk := true }]
          ["/docs/a.txt"] []).2).1.updated = 0
    ∧ (incrementalIndexDirectory
        [{ filePath := "/docs/a.txt", fileName := "a.txt", hash := "h1",
           modifiedTime := "t1", chunkCount := 2, now := "t1", hashOk := true,
           processOk := true }]
        ["/docs/a.txt"]
        (incrementalIndexDirectory
          [{ filePath := "/docs/a.txt", fileName := "a.txt", hash := "h1",
             modifiedTime := "t1", chunkCount := 2, now := "t1", hashOk := true,
             processOk := true }]
          ["/docs/a.txt"] []).2).1.deleted = 0
    ∧ (incrementalIndexDirectory
        [{ filePath := "/docs/a.txt", fileName := "a.txt", hash := "h1",
           modifiedTime := "t1", chunkCount := 2, now := "t1", hashOk := true,
           processOk := true }]
        ["/docs/a.txt"]
        (incrementalIndexDirectory
          [{ filePath := "/docs/a.txt", fileName := "a.txt", hash := "h1",
             modifiedTime := "t1", chunkCount := 2, now := "t1", hashOk := true,
             processOk := true }]
          ["/docs/a.txt"] []).2).1.skipped
      = (incrementalIndexDirectory
          [{ filePath := "/docs/a.txt", fileName := "a.txt", hash := "h1",
             modifiedTime := "t1", chunkCount := 2, now := "t1", hashOk := true,
             processOk := true }]
          ["/docs/a.txt"] []).1.total :=
  claim_C1_idempotence _ _ [] (by decide) (by decide) (by decide)

/-- C4: Deletion detection — every ledger path missing from disk at the end
of the per-file loop is counted exactly once among the deleted files, its
record is gone from the final ledger, and `deleted` is computed from the
ledger/filesystem diff (`findDeletedFiles`), not from the scan results. -/
theorem claim_C4_deletion_detection (files : List ScanFile)
    (disk : List String) (h0 : History) (hnodup : (keys h0).Nodup)
    (p : String) (hp : p ∈ keys (postLoopHistory files h0).history)
    (hdisk : p ∉ disk) :
    (findDeletedFiles (postLoopHistory files h0).history disk).count p = 1
    ∧ mapGet (incrementalIndexDirectory files disk h0).2 p = none
    ∧ (incrementalIndexDirectory files disk h0).1.deleted
        = (findDeletedFiles (postLoopHistory files h0).history disk).length := by
  have hpost : (postLoopHistory files h0).history = files.foldl stepHistory h0 :=
    foldl_processFile_history files _
  have hnodupL : (keys (postLoopHistory files h0).history).Nodup := by
    rw [hpost]
    exact nodup_keys_run files h0 hnodup
  have hmem : p ∈ findDeletedFiles (postLoopHistory files h0).history disk :=
    (mem_findDeletedFiles _ _ _).mpr ⟨hp, hdisk⟩
  have hnodupD : (findDeletedFiles (postLoopHistory files h0).history disk).Nodup :=
    hnodupL.filter _
  refine ⟨List.count_eq_one_of_mem hnodupD hmem, ?_, ?_⟩
  · have h2eq : (incrementalIndexDirectory files disk h0).2
        = (findDeletedFiles (postLoopHistory files h0).history disk).foldl
            removeRecord (postLoopHistory files h0).history := by
      simp only [incrementalIndexDirectory]
    rw [h2eq]
    exact mapGet_foldl_remove_of_mem _ _ _ hmem
  · simp only [incrementalIndexDirectory]

/-- Witness for C4: a ledger entry whose file is gone from disk. -/
theorem claim_C4_witness :
    (findDeletedFiles
        (postLoopHistory []
          [("/docs/gone.txt",
            { hash := "h1", modifiedTime := "t1", chunkCount := 2,
              indexedAt := "t1" })]).history []).count "/docs/gone.txt" = 1
    ∧ mapGet (incrementalIndexDirectory [] []
        [("/docs/gone.txt",
          { hash := "h1", modifiedTime := "t1", chunkCount := 2,
            indexedAt := "t1" })]).2 "/docs/gone.txt" = none
    ∧ (incrementalIndexDirectory [] []
        [("/docs/gone.txt",
          { hash := "h1", modifiedTime := "t1", chunkCount := 2,
            indexedAt := "t1" })]).1.deleted
      = (findDeletedFiles
          (postLoopHistory []
            [("/docs/gone.txt",
              { hash := "h1", modifiedTime := "t1", chunkCount := 2,
                indexedAt := "t1" })]).history []).length :=
  claim_C4_deletion_detection [] []
    [("/docs/gone.txt",
      { hash := "h1", modifiedTime := "t1", chunkCount := 2,
        indexedAt := "t1" })]
    (by decide) "/docs/gone.txt" (by decide) (by decide)

/-! ### C7: hidden entries in the directory scan -/

theorem getAllFiles_shape (dirPath : String) (recursive : Bool)
    (entries : List FsEntry) :
    namesOk entries = true →
    ∀ p ∈ getAllFiles dirPath recursive entries,
      ∃ d n, p = d ++ "/" ++ n ∧ startsWithStr n "." = false
        ∧ nameOk n = true := by
  induction dirPath, recursive, entries using getAllFiles.induct with
  | case1 d r =>
    intro _ p hp
    simp [getAllFiles] at hp
  | case2 d r name rest ih =>
    intro hnm p hp
    simp only [namesOk, Bool.and_eq_true] at hnm
    rw [getAllFiles] at hp
    rcases List.mem_append.mp hp with h1 | h2
    · by_cases hs : startsWithStr name "." = true
      · simp [hs] at h1
      · rw [if_neg hs] at h1
        rcases List.mem_singleton.mp h1 with rfl
        exact ⟨d, name, rfl, by simpa using hs, hnm.1⟩
    · exact ih hnm.2 p h2
  | case3 d r name entries rest ih1 ih2 =>
    intro hnm p hp
    simp only [namesOk, Bool.and_eq_true] at hnm
    rw [getAllFiles] at hp
    rcases List.mem_append.mp hp with h1 | h2
    · by_cases hr : r = true
      · rw [if_pos hr] at h1
        exact ih1 hnm.1.2 p h1
      · simp [hr] at h1
    · exact ih2 hnm.2 p h2

/-- C7 (amended): for a well-formed scan (entry names are base names, i.e.
contain no `/`), every returned path ends in `/` followed by a slash-free
file name that does not start with a dot — since `n` may not contain `/`,
this decomposition pins down the path's final component, so the file's own
name is never hidden — but directories are recursed into regardless of
their name, so files under a hidden directory are still returned (second
conjunct: the recursion ignores the directory's name entirely). -/
theorem claim_C7_hidden_files (dirPath : String) (recursive : Bool)
    (entries : List FsEntry) (p : String)
    (hnames : namesOk entries = true)
    (hp : p ∈ getAllFiles dirPath recursive entries) :
    (∃ d n, p = d ++ "/" ++ n ∧ startsWithStr n "." = false
      ∧ nameOk n = true)
    ∧ (∀ (dp nm : String) (es rest : List FsEntry),
      getAllFiles dp true (FsEntry.dir nm es :: rest)
        = getAllFiles (dp ++ "/" ++ nm) true es ++ getAllFiles dp true rest) := by
  refine ⟨getAllFiles_shape dirPath recursive entries hnames p hp, ?_⟩
  intro dp nm es rest
  rw [getAllFiles]
  simp

/-- C7 counterexample: the claim "the scan skips hidden entries entirely,
and no file under a hidden entry is returned" is false — `getAllFiles` only
filters hidden *files*; a hidden *directory* is recursed into and the file
beneath it is returned. -/
theorem claim_C7_counterexample :
    getAllFiles "docs" true [FsEntry.dir ".hidden" [FsEntry.file "secret.txt"]]
      = ["docs/.hidden/secret.txt"] := by
  simp only [getAllFiles]
  decide

/-- Witness for C7 at a concrete visible file. -/
theorem claim_C7_witness :
    ∃ d n, ("docs/readme.md" : String) = d ++ "/" ++ n
      ∧ startsWithStr n "." = false ∧ nameOk n = true :=
  (claim_C7_hidden_files "docs" true [FsEntry.file "readme.md"] "docs/readme.md"
    (by simp only [namesOk, nameOk]; decide)
    (by simp only [getAllFiles]; decide)).1

end RagInit

